import Mathlib

/-!
Verification development for the `genetics-content` repository
(`rag_chatbot/ingest.py`, `rag_chatbot/chat.py`, `rag_chatbot/web.py`).

Text is modelled as `List Char` (`Str`).  Each definition is a shallow
embedding of the corresponding Python function; comments name the source
location.  Machine floats never matter for the properties below, so
embedding vectors are modelled as `List Int` and the embedding model itself
as an explicit function argument (the spec treats it as an opaque function).
-/

set_option autoImplicit false

abbrev Str := List Char

/-- Convert a Lean string literal to the `List Char` text model. -/
def str (s : String) : Str := s.data

/-- Characters stripped by Python `str.strip()` (the ASCII whitespace set;
the exotic Unicode spaces never occur in the corpus model). -/
def isPySpace (c : Char) : Bool :=
  c = ' ' || c = '\t' || c = '\n' || c = '\r' || c = '\x0b' || c = '\x0c'

/-- Python `text.strip()`. -/
def pyStrip (s : Str) : Str :=
  ((s.dropWhile isPySpace).reverse.dropWhile isPySpace).reverse

/-- Concatenation of a list of texts (Python `"".join`). -/
def joinCL : List Str → Str
  | [] => []
  | x :: xs => x ++ joinCL xs

/-- Python `sep.join(parts)`. -/
def intercalateCL (sep : Str) : List Str → Str
  | [] => []
  | [x] => x
  | x :: y :: rest => x ++ sep ++ intercalateCL sep (y :: rest)

/-- Sum of the lengths of a list of texts. -/
def sumLen : List Str → Nat
  | [] => 0
  | x :: xs => x.length + sumLen xs

/-!
## Chunker: `langchain_text_splitters.RecursiveCharacterTextSplitter`

`ingest.py` lines 56–69 construct the splitter with `chunk_size=1000`,
`chunk_overlap=200`, `separators=["\n\n", "\n", ". ", " ", ""]`,
`length_function=len`; the class defaults `keep_separator=True` and
`strip_whitespace=True` apply, and `is_separator_regex=False`, so every
regex operation in the library reduces to literal substring matching.
-/

/-- Worker for `re.split(f"({re.escape(sep)})", text)` restricted to a
literal separator: returns the pieces of `text` between the leftmost
non-overlapping occurrences of `sep`.  `skip` counts separator characters
still to be consumed after a match. -/
def splitGo (sep : Str) : List Char → Nat → List Str
  | [], _ => [[]]
  | _ :: rest, skip + 1 => splitGo sep rest skip
  | c :: rest, 0 =>
    if sep.isPrefixOf (c :: rest) then
      [] :: splitGo sep rest (sep.length - 1)
    else
      match splitGo sep rest 0 with
      | [] => [[c]]
      | p :: ps => (c :: p) :: ps

/-- `langchain_text_splitters.base._split_text_with_regex` with
`keep_separator=True`: the separator is re-attached to the front of the
piece that follows it, and empty pieces are dropped.  With `sep = ""` the
Python code takes `splits = list(text)`. -/
def splitKeepSep (sep : Str) (text : Str) : List Str :=
  if sep = [] then
    (text.map fun c => [c]).filter (· ≠ [])
  else
    (match splitGo sep text 0 with
     | [] => []
     | p :: ps => p :: ps.map (fun q => sep ++ q)).filter (· ≠ [])

/-- Literal-substring test, the meaning of `re.search(re.escape(s), text)`:
some suffix of `text` starts with `sep`. -/
def occursIn (sep : Str) : Str → Bool
  | [] => sep.isPrefixOf []
  | c :: rest => sep.isPrefixOf (c :: rest) || occursIn sep rest

/-- The separator-selection loop at the top of
`RecursiveCharacterTextSplitter._split_text`: pick the first separator that
is `""` or occurs in `text` (falling back to the last separator), together
with the remaining separators (`new_separators`). -/
def pickSep (text : Str) : List Str → Str × List Str
  | [] => ([], [])
  | s :: rest =>
    if s = [] then ([], [])
    else if occursIn s text then (s, rest)
    else
      match rest with
      | [] => (s, [])
      | _ :: _ => pickSep text rest

/-- Python `str.strip` + empty filter applied when a chunk is emitted
(`TextSplitter._join_docs` with the join separator `""`). -/
def joinDocs (docs : List Str) : Option Str :=
  let text := pyStrip (joinCL docs)
  if text = [] then none else some text

/-- The `while` loop inside `TextSplitter._merge_splits` that pops leading
members of `current_doc` until the running total is back within the overlap
budget (the join separator is `""`, so its length contributes 0). -/
def popWhile (ov cs lenD : Nat) : List Str → Nat → List Str × Nat
  | [], total => ([], total)
  | c :: rest, total =>
    if total > ov ∨ (total + lenD > cs ∧ total > 0) then
      popWhile ov cs lenD rest (total - c.length)
    else
      (c :: rest, total)

/-- Main loop of `TextSplitter._merge_splits` (join separator `""`):
accumulate pieces into `current` while the total stays within `cs`;
when a piece would overflow, emit the joined current document and keep a
trailing overlap of at most `ov` characters. -/
def mergeLoop (cs ov : Nat) (docs current : List Str) (total : Nat) : List Str → List Str
  | [] =>
    match joinDocs current with
    | some d => docs ++ [d]
    | none => docs
  | d :: ds =>
    if total + d.length > cs then
      if current.isEmpty then
        mergeLoop cs ov docs (current ++ [d]) (total + d.length) ds
      else
        let docs2 :=
          match joinDocs current with
          | some dd => docs ++ [dd]
          | none => docs
        let pr := popWhile ov cs d.length current total
        mergeLoop cs ov docs2 (pr.1 ++ [d]) (pr.2 + d.length) ds
    else
      mergeLoop cs ov docs (current ++ [d]) (total + d.length) ds

/-- `TextSplitter._merge_splits` with join separator `""`. -/
def mergeSplits (cs ov : Nat) (splits : List Str) : List Str :=
  mergeLoop cs ov [] [] 0 splits

/-- The piece-processing loop of `RecursiveCharacterTextSplitter._split_text`:
pieces shorter than `cs` are collected into `_good_splits` and merged;
an over-long piece flushes the good splits, then is either recursed into
(when further separators remain, `hasNew`) or emitted as-is. -/
def processSplits (cs ov : Nat) (hasNew : Bool) (recur : Str → List Str) (goods : List Str) :
    List Str → List Str
  | [] => if goods.isEmpty then [] else mergeSplits cs ov goods
  | s :: rest =>
    if s.length < cs then
      processSplits cs ov hasNew recur (goods ++ [s]) rest
    else
      (if goods.isEmpty then [] else mergeSplits cs ov goods)
        ++ (if hasNew then recur s else [s])
        ++ processSplits cs ov hasNew recur [] rest

/-- `RecursiveCharacterTextSplitter._split_text`.  The recursion passes a
strictly shorter separator list, so a fuel of `separators.length` is exact;
the fuel-0 branch is unreachable at the call site below. -/
def splitTextFuel (cs ov : Nat) : Nat → List Str → Str → List Str
  | 0, _, text => [text]
  | fuel + 1, seps, text =>
    let p := pickSep text seps
    let splits := splitKeepSep p.1 text
    processSplits cs ov (!p.2.isEmpty) (splitTextFuel cs ov fuel p.2) [] splits

/-- The separator list from `ingest.py` line 63:
`["\n\n", "\n", ". ", " ", ""]`. -/
def SEPARATORS : List Str := [['\n', '\n'], ['\n'], ['.', ' '], [' '], []]

/-- `splitter.split_text` for the splitter built in `ingest.py`
(`chunk_size=1000`, `chunk_overlap=200`). -/
def splitText (text : Str) : List Str :=
  splitTextFuel 1000 200 SEPARATORS.length SEPARATORS text

/-- A langchain `Document`: `page_content` plus a metadata dictionary
(modelled as an association list, first binding wins). -/
structure RDoc where
  page_content : Str
  metadata : List (Str × Str)
deriving DecidableEq, Repr

/-- `ingest.py` `chunk_documents` (lines 56–69): `splitter.split_documents`
re-emits each chunk as a `Document` carrying a copy of the parent
document's metadata (`add_start_index` defaults to `False`). -/
def chunk_documents (documents : List RDoc) : List RDoc :=
  (documents.map fun d =>
    (splitText d.page_content).map fun c => RDoc.mk c d.metadata).flatten

/-!
## Corpus loading: `ingest.py` `load_documents` (lines 33–54)

Files are read with `txt_file.read_text(encoding="utf-8", errors="ignore")`.
-/

/-- UTF-8 continuation byte test. -/
def isCont (b : Nat) : Bool := decide (0x80 ≤ b ∧ b ≤ 0xBF)

/-- Worker for `bytes.decode("utf-8", errors="ignore")`: standard UTF-8
decoding (overlongs and surrogates rejected), where every undecodable byte
is dropped from the output.  CPython's `ignore` handler skips the maximal
invalid subpart; this model re-examines the remaining bytes one at a time,
which drops exactly the same bytes because a continuation byte is never a
valid lead.  The step counter starts at the byte count; every step
consumes at least one byte, so the `0` fallback is unreachable. -/
def decodeUtf8IgnoreGo : Nat → List Nat → List Char
  | 0, _ => []
  | _, [] => []
  | fuel + 1, b1 :: rest =>
    if b1 < 0x80 then
      Char.ofNat b1 :: decodeUtf8IgnoreGo fuel rest
    else if b1 < 0xC2 then
      -- continuation byte in lead position, or overlong lead 0xC0/0xC1
      decodeUtf8IgnoreGo fuel rest
    else if b1 ≤ 0xDF then
      match rest with
      | [] => []
      | b2 :: rest2 =>
        if isCont b2 then
          Char.ofNat ((b1 - 0xC0) * 64 + (b2 - 0x80)) :: decodeUtf8IgnoreGo fuel rest2
        else decodeUtf8IgnoreGo fuel rest
    else if b1 ≤ 0xEF then
      match rest with
      | [] => []
      | b2 :: rest2 =>
        if (if b1 = 0xE0 then decide (0xA0 ≤ b2 ∧ b2 ≤ 0xBF)
            else if b1 = 0xED then decide (0x80 ≤ b2 ∧ b2 ≤ 0x9F)
            else isCont b2) then
          match rest2 with
          | [] => []
          | b3 :: rest3 =>
            if isCont b3 then
              Char.ofNat ((b1 - 0xE0) * 4096 + (b2 - 0x80) * 64 + (b3 - 0x80))
                :: decodeUtf8IgnoreGo fuel rest3
            else decodeUtf8IgnoreGo fuel rest2
        else decodeUtf8IgnoreGo fuel rest
    else if b1 ≤ 0xF4 then
      match rest with
      | [] => []
      | b2 :: rest2 =>
        if (if b1 = 0xF0 then decide (0x90 ≤ b2 ∧ b2 ≤ 0xBF)
            else if b1 = 0xF4 then decide (0x80 ≤ b2 ∧ b2 ≤ 0x8F)
            else isCont b2) then
          match rest2 with
          | [] => []
          | b3 :: rest3 =>
            if isCont b3 then
              match rest3 with
              | [] => []
              | b4 :: rest4 =>
                if isCont b4 then
                  Char.ofNat ((b1 - 0xF0) * 262144 + (b2 - 0x80) * 4096
                      + (b3 - 0x80) * 64 + (b4 - 0x80)) :: decodeUtf8IgnoreGo fuel rest4
                else decodeUtf8IgnoreGo fuel rest3
            else decodeUtf8IgnoreGo fuel rest2
        else decodeUtf8IgnoreGo fuel rest
    else
      -- invalid lead byte 0xF5..0xFF
      decodeUtf8IgnoreGo fuel rest

/-- Python `bytes.decode("utf-8", errors="ignore")`. -/
def decodeUtf8Ignore (bytes : List Nat) : List Char :=
  decodeUtf8IgnoreGo bytes.length bytes

/-- A file of the corpus directory: name, full path string, raw bytes. -/
structure PFile where
  name : Str
  path : Str
  bytes : List Nat
deriving DecidableEq, Repr

/-- `EXTRACTED_TEXT_DIR.glob("*.txt")`: the files whose name ends in
`.txt`, in directory order. -/
def globTxt (files : List PFile) : List PFile :=
  files.filter fun f => (str ".txt").isSuffixOf f.name

/-- `ingest.py` `load_documents` (lines 33–54).  The corpus directory is
`none` when absent; `Path.glob` on an absent directory yields nothing, so
the loop body never runs.  Each file becomes a `Document` with metadata
`source` (the file name) and `file_path`. -/
def load_documents (dir : Option (List PFile)) : List RDoc :=
  match dir with
  | none => []
  | some files =>
    (globTxt files).map fun f =>
      RDoc.mk (decodeUtf8Ignore f.bytes)
        [(str "source", f.name), (str "file_path", f.path)]

/-- Error taxonomy named by the specification for ingestion.  The
constructor `corpusNotFound` exists only so the claim about it can be
stated; no code path of `ingest.py` raises. -/
inductive IngestError where
  | corpusNotFound
deriving DecidableEq, Repr

/-- `load_documents` wrapped in the error monad, recording that no input
makes it raise. -/
def loadDocumentsE (dir : Option (List PFile)) : Except IngestError (List RDoc) :=
  Except.ok (load_documents dir)

/-- `ingest.py` `create_vector_store` (lines 71–102): every chunk is
embedded and inserted into the Chroma collection in order.  The embedding
model is opaque (spec §1), passed as a function. -/
def create_vector_store (embed : Str → List Int) (chunks : List RDoc) :
    List (RDoc × List Int) :=
  chunks.map fun c => (c, embed c.page_content)

/-- Observable outcome of `ingest.py` `main` (lines 104–127). -/
inductive IngestOutcome where
  | noDocuments
  | storeCreated (store : List (RDoc × List Int))
deriving DecidableEq, Repr

/-- `ingest.py` `main` (lines 104–127): load, bail out early when no
documents were found, otherwise chunk and build the store.  No exception
is ever raised. -/
def mainIngestE (embed : Str → List Int) (dir : Option (List PFile)) :
    Except IngestError IngestOutcome :=
  match loadDocumentsE dir with
  | Except.error e => Except.error e
  | Except.ok documents =>
    if documents.isEmpty then
      Except.ok IngestOutcome.noDocuments
    else
      Except.ok (IngestOutcome.storeCreated
        (create_vector_store embed (chunk_documents documents)))

/-!
## Retrieval: `chat.py` lines 83–113 and `web.py` lines 49–76
-/

/-- Python `doc.metadata.get(key, default)` over the association-list
metadata model. -/
def metaGet (m : List (Str × Str)) (key dflt : Str) : Str :=
  match m.find? (fun kv => kv.1 == key) with
  | some kv => kv.2
  | none => dflt

/-- Integer dot product, the similarity score of stored vector and query
vector (unit-normalised cosine in the spec; the numeric type is irrelevant
to the claims). -/
def dotInt : List Int → List Int → Int
  | x :: xs, y :: ys => x * y + dotInt xs ys
  | _, _ => 0

/-- Insert into a descending-score list, keeping earlier-inserted entries
first on ties (Chroma's stable ranking). -/
def insertRanked (x : RDoc × Int) : List (RDoc × Int) → List (RDoc × Int)
  | [] => [x]
  | y :: ys => if y.2 ≥ x.2 then y :: insertRanked x ys else x :: y :: ys

/-- Stable sort of the scored entries by descending score. -/
def sortRanked (entries : List (RDoc × Int)) : List (RDoc × Int) :=
  entries.foldl (fun acc x => insertRanked x acc) []

/-- Model of `vector_store.similarity_search(query, k)`: score every
stored entry against the query vector, rank descending (stable), return
the first `k` documents.  An empty collection returns no results (modern
Chroma warns and truncates rather than raising when `k` exceeds the
collection size). -/
def similaritySearch (store : List (RDoc × List Int)) (qvec : List Int) (k : Nat) :
    List RDoc :=
  ((sortRanked (store.map fun e => (e.1, dotInt e.2 qvec))).map fun e => e.1).take k

/-- The per-chunk part built in the loop of `retrieve_context`:
`f"[Source: {source}]\n{doc.page_content}"` with
`source = doc.metadata.get("source", "unknown")`. -/
def formatPart (d : RDoc) : Str :=
  str "[Source: " ++ metaGet d.metadata (str "source") (str "unknown")
    ++ str "]\n" ++ d.page_content

/-- `chat.py` `retrieve_context` (lines 104–113): build `context_parts` in
result order and join with `"\n\n---\n\n"`. -/
def retrieve_context (store : List (RDoc × List Int)) (qvec : List Int) (k : Nat) : Str :=
  let results := similaritySearch store qvec k
  let context_parts := results.foldl (fun acc d => acc ++ [formatPart d]) []
  intercalateCL (str "\n\n---\n\n") context_parts

/-- `web.py` `retrieve_context` (lines 69–76), textually identical logic. -/
def web_retrieve_context (store : List (RDoc × List Int)) (qvec : List Int) (k : Nat) : Str :=
  let results := similaritySearch store qvec k
  let context_parts := results.foldl (fun acc d => acc ++ [formatPart d]) []
  intercalateCL (str "\n\n---\n\n") context_parts

/-!
## Conversation: `chat.py` lines 116–199
-/

/-- A conversation turn (`{"role": ..., "content": ...}`). -/
structure Turn where
  role : Str
  content : Str
deriving DecidableEq, Repr

/-- A failed `client.messages.create` call (any non-success response;
`GenerationFailed` in the spec's taxonomy). -/
inductive GenError where
  | generationFailed
deriving DecidableEq, Repr

/-- The f-string template of `chat_with_claude` (lines 118–126). -/
def buildUserMessage (context query : Str) : Str :=
  str "Based on the following textbook content, please answer the student's question.\n\nTEXTBOOK CONTENT:\n"
    ++ context
    ++ str "\n\nSTUDENT'S QUESTION:\n"
    ++ query
    ++ str "\n\nPlease provide a clear, educational response based on the textbook content above."

/-- `chat.py` `chat_with_claude` (lines 116–140).  The language-model call
is the opaque function `llm`, which may fail.  Python mutates the
`messages` list in place: the user turn is appended *before* the call, the
assistant turn after a successful call.  The first component of the result
is the state of `messages` when the function returns or the exception
propagates; the second is the returned text or the error. -/
def chat_with_claude (llm : List Turn → Except GenError Str) (messages : List Turn)
    (context query : Str) : List Turn × Except GenError Str :=
  let messages1 := messages ++ [Turn.mk (str "user") (buildUserMessage context query)]
  match llm messages1 with
  | Except.error e => (messages1, Except.error e)
  | Except.ok assistant_message =>
    (messages1 ++ [Turn.mk (str "assistant") assistant_message],
      Except.ok assistant_message)

/-- Errors that end a chat session before or during the loop.
`indexNotFound` models `raise SystemExit(1)` in `chat.py`
`load_vector_store` (line 88) and the `RuntimeError` in `web.py` (lines
52–54) — the spec's `IndexNotFound`.  `generation e` models an uncaught
exception of the language-model call terminating the process. -/
inductive SessionError where
  | indexNotFound
  | generation (e : GenError)
deriving DecidableEq, Repr

/-- `chat.py` `load_vector_store` (lines 83–101): when the persisted
vector-store directory does not exist (`none`), fail with the spec's
`IndexNotFound` before anything else; otherwise open the stored
collection. -/
def load_vector_store (fsStore : Option (List (RDoc × List Int))) :
    Except SessionError (List (RDoc × List Int)) :=
  match fsStore with
  | none => Except.error SessionError.indexNotFound
  | some s => Except.ok s

/-- `web.py` `load_vector_store` (lines 49–66): identical check, raising
`RuntimeError` instead of `SystemExit`. -/
def web_load_vector_store (fsStore : Option (List (RDoc × List Int))) :
    Except SessionError (List (RDoc × List Int)) :=
  match fsStore with
  | none => Except.error SessionError.indexNotFound
  | some s => Except.ok s

/-- The question loop of `chat.py` `main` (lines 164–194): retrieve
context for each question with `k = 5`, call Claude, carry the mutated
history forward.  An exception of the call is uncaught and terminates the
session. -/
def runLoop (llm : List Turn → Except GenError Str) (embedq : Str → List Int)
    (store : List (RDoc × List Int)) (messages : List Turn) :
    List Str → Except SessionError (List Turn)
  | [] => Except.ok messages
  | q :: rest =>
    let context := retrieve_context store (embedq q) 5
    let r := chat_with_claude llm messages context q
    match r.2 with
    | Except.error e => Except.error (SessionError.generation e)
    | Except.ok _ => runLoop llm embedq store r.1 rest

/-- `chat.py` `main` (lines 143–194): the vector store is loaded before
the first question; when that fails no question is ever served. -/
def runChat (llm : List Turn → Except GenError Str) (embedq : Str → List Int)
    (fsStore : Option (List (RDoc × List Int))) (questions : List Str) :
    Except SessionError (List Turn) :=
  match load_vector_store fsStore with
  | Except.error e => Except.error e
  | Except.ok store => runLoop llm embedq store [] questions

/-!
## Embedder configuration: `ingest.py` 24/27–31/78–84, `chat.py` 26/47–52/90–95,
`web.py` 21/42–46/56–60
-/

/-- The keyword arguments each file passes to `HuggingFaceEmbeddings`. -/
structure EmbedderConfig where
  model_name : Str
  device : Str
  normalize_embeddings : Bool
deriving DecidableEq, Repr

/-- `ingest.py` `get_device` (lines 27–31), a function of
`platform.system()` and `platform.processor()`. -/
def ingest_get_device (system processor : Str) : Str :=
  if system = str "Darwin" ∧ processor = str "arm" then str "mps" else str "cpu"

/-- `chat.py` `get_device` (lines 47–52). -/
def chat_get_device (system processor : Str) : Str :=
  if system = str "Darwin" ∧ processor = str "arm" then str "mps" else str "cpu"

/-- `web.py` `get_device` (lines 42–46). -/
def web_get_device (system processor : Str) : Str :=
  if system = str "Darwin" ∧ processor = str "arm" then str "mps" else str "cpu"

/-- The embedder built at ingestion time (`ingest.py` lines 78–84). -/
def ingest_embedder_config (system processor : Str) : EmbedderConfig :=
  EmbedderConfig.mk (str "all-MiniLM-L6-v2") (ingest_get_device system processor) true

/-- The embedder built at query time by `chat.py` (lines 90–95). -/
def chat_embedder_config (system processor : Str) : EmbedderConfig :=
  EmbedderConfig.mk (str "all-MiniLM-L6-v2") (chat_get_device system processor) true

/-- The embedder built at query time by `web.py` (lines 56–60). -/
def web_embedder_config (system processor : Str) : EmbedderConfig :=
  EmbedderConfig.mk (str "all-MiniLM-L6-v2") (web_get_device system processor) true

/-!
## Helper lemmas
-/

theorem foldl_append_singleton {α β : Type} (f : α → List β) :
    ∀ (l : List α) (acc : List (List β)),
      l.foldl (fun acc d => acc ++ [f d]) acc = acc ++ l.map f := by
  intro l
  induction l with
  | nil => intro acc; simp
  | cons x xs ih => intro acc; simp [List.foldl_cons, ih]

theorem intercalateCL_cons (sep : Str) (a : Str) (l : List Str) :
    intercalateCL sep (a :: l) = a ++ (if l = [] then [] else sep ++ intercalateCL sep l) := by
  cases l with
  | nil => simp [intercalateCL]
  | cons y ys => simp [intercalateCL]

/-- Every member's image sits inside the separator-joined map. -/
theorem mem_intercalateCL_decomp (sep : Str) (f : RDoc → Str) :
    ∀ (l : List RDoc) (d : RDoc), d ∈ l →
      ∃ pre post, intercalateCL sep (l.map f) = pre ++ f d ++ post := by
  intro l
  induction l with
  | nil => intro d hd; cases hd
  | cons x xs ih =>
    intro d hd
    rw [List.map_cons, intercalateCL_cons]
    rcases List.mem_cons.mp hd with h | h
    · subst h
      exact ⟨[], (if xs.map f = [] then [] else sep ++ intercalateCL sep (xs.map f)), by simp⟩
    · obtain ⟨pre, post, hpp⟩ := ih d h
      refine ⟨f x ++ sep ++ pre, post, ?_⟩
      have hxs : xs.map f ≠ [] := by
        intro hnil
        rw [List.map_eq_nil_iff] at hnil
        subst hnil
        cases h
      rw [if_neg hxs, hpp]
      simp [List.append_assoc]

/-!
## Claims
-/

/-- C1 (counterexample): a failed language-model call on the very first
turn (prior history length 0) leaves `messages` at length 1, not 0 — the
user turn was already appended before the failing call inside
`chat_with_claude`. -/
theorem chat_with_claude_failure_mutates_history_cex :
    (chat_with_claude (fun _ => Except.error GenError.generationFailed)
        [] (str "ctx") (str "q")).1.length = 1 ∧
    ¬ (chat_with_claude (fun _ => Except.error GenError.generationFailed)
        [] (str "ctx") (str "q")).1.length = 0 := by
  constructor
  · rfl
  · intro h
    simp [chat_with_claude] at h

/-- C1 (amended): when the language-model call fails, `chat_with_claude`
has already appended the user turn, so the history is left at length
`2*N + 1` — exactly the prior history plus the user turn; the assistant
turn is not appended and the error propagates. -/
theorem chat_with_claude_failure_history
    (llm : List Turn → Except GenError Str) (messages : List Turn)
    (context query : Str) (N : Nat) (e : GenError)
    (hlen : messages.length = 2 * N)
    (hfail : llm (messages ++ [Turn.mk (str "user") (buildUserMessage context query)])
      = Except.error e) :
    (chat_with_claude llm messages context query).1.length = 2 * N + 1 ∧
    (chat_with_claude llm messages context query).1
      = messages ++ [Turn.mk (str "user") (buildUserMessage context query)] ∧
    (chat_with_claude llm messages context query).2 = Except.error e := by
  have key : chat_with_claude llm messages context query
      = (messages ++ [Turn.mk (str "user") (buildUserMessage context query)],
          Except.error e) := by
    simp only [chat_with_claude]
    rw [hfail]
  rw [key]
  refine ⟨?_, rfl, rfl⟩
  simp [hlen]

/-- C1 (witness): the amended statement at the concrete failing first turn. -/
theorem chat_with_claude_failure_history_witness :
    ([] : List Turn).length = 2 * 0 ∧
    ((chat_with_claude (fun _ => Except.error GenError.generationFailed)
        [] (str "ctx") (str "q")).1.length = 2 * 0 + 1 ∧
      (chat_with_claude (fun _ => Except.error GenError.generationFailed)
        [] (str "ctx") (str "q")).1
        = [] ++ [Turn.mk (str "user") (buildUserMessage (str "ctx") (str "q"))] ∧
      (chat_with_claude (fun _ => Except.error GenError.generationFailed)
        [] (str "ctx") (str "q")).2 = Except.error GenError.generationFailed) :=
  ⟨rfl, chat_with_claude_failure_history
    (fun _ => Except.error GenError.generationFailed) [] (str "ctx") (str "q") 0
    GenError.generationFailed rfl rfl⟩

/-- C2 (counterexample): with the corpus directory absent, loading raises
nothing — it returns `ok []` (the `glob` loop body never runs), and `main`
finishes with the `noDocuments` early return, not a `CorpusNotFound`
error. -/
theorem load_documents_absent_dir_no_error_cex :
    loadDocumentsE none = Except.ok [] ∧
    loadDocumentsE none ≠ Except.error IngestError.corpusNotFound ∧
    mainIngestE (fun _ => []) none = Except.ok IngestOutcome.noDocuments := by
  refine ⟨rfl, ?_, rfl⟩
  intro h
  exact Except.noConfusion h

/-- C2 (amended): an absent corpus directory yields zero documents without
any error, and `main` reports "No documents found!" and returns before
building any vector store. -/
theorem load_documents_absent_dir_returns_empty (embed : Str → List Int) :
    load_documents none = [] ∧
    loadDocumentsE none = Except.ok [] ∧
    mainIngestE embed none = Except.ok IngestOutcome.noDocuments :=
  ⟨rfl, rfl, rfl⟩

/-- C5: the context string built by `retrieve_context` is exactly the
chunk texts in ranking order, each prefixed with its
`[Source: ...]` label (`formatPart`), joined with the fixed
`"\n\n---\n\n"` separator; and every result's labelled part occurs inside
the context string.  `web.py`'s copy agrees. -/
theorem retrieve_context_concat_ranked_labels
    (store : List (RDoc × List Int)) (qvec : List Int) (k : Nat)
    (hne : similaritySearch store qvec k ≠ []) :
    retrieve_context store qvec k
      = intercalateCL (str "\n\n---\n\n") ((similaritySearch store qvec k).map formatPart) ∧
    (∀ d ∈ similaritySearch store qvec k,
      ∃ pre post, retrieve_context store qvec k = pre ++ formatPart d ++ post) ∧
    web_retrieve_context store qvec k = retrieve_context store qvec k := by
  have hfold : retrieve_context store qvec k
      = intercalateCL (str "\n\n---\n\n") ((similaritySearch store qvec k).map formatPart) := by
    simp only [retrieve_context]
    rw [foldl_append_singleton formatPart (similaritySearch store qvec k) [],
      List.nil_append]
  refine ⟨hfold, ?_, rfl⟩
  intro d hd
  rw [hfold]
  exact mem_intercalateCL_decomp (str "\n\n---\n\n") formatPart _ d hd

/-- C5 (witness): the statement at a concrete one-entry store. -/
theorem retrieve_context_concat_ranked_labels_witness :
    similaritySearch [(RDoc.mk (str "t") [(str "source", str "a.txt")], [1])] [1] 5 ≠ [] ∧
    (retrieve_context [(RDoc.mk (str "t") [(str "source", str "a.txt")], [1])] [1] 5
      = intercalateCL (str "\n\n---\n\n")
          ((similaritySearch [(RDoc.mk (str "t") [(str "source", str "a.txt")], [1])] [1] 5).map
            formatPart) ∧
      (∀ d ∈ similaritySearch [(RDoc.mk (str "t") [(str "source", str "a.txt")], [1])] [1] 5,
        ∃ pre post,
          retrieve_context [(RDoc.mk (str "t") [(str "source", str "a.txt")], [1])] [1] 5
            = pre ++ formatPart d ++ post) ∧
      web_retrieve_context [(RDoc.mk (str "t") [(str "source", str "a.txt")], [1])] [1] 5
        = retrieve_context [(RDoc.mk (str "t") [(str "source", str "a.txt")], [1])] [1] 5) :=
  ⟨by decide,
    retrieve_context_concat_ranked_labels
      [(RDoc.mk (str "t") [(str "source", str "a.txt")], [1])] [1] 5 (by decide)⟩

/-- C6: an empty corpus produces an empty vector store, and
`retrieve_context` then returns the empty context string for every query
— no error; likewise for the store built by the full ingestion pipeline
from an empty or absent corpus directory. -/
theorem retrieve_context_empty_corpus_empty (embed : Str → List Int)
    (qvec : List Int) (k : Nat) :
    retrieve_context [] qvec k = [] ∧
    retrieve_context (create_vector_store embed (chunk_documents (load_documents (some []))))
      qvec k = [] ∧
    retrieve_context (create_vector_store embed (chunk_documents (load_documents none)))
      qvec k = [] := by
  refine ⟨?_, ?_, ?_⟩ <;>
    simp [retrieve_context, similaritySearch, sortRanked, load_documents, globTxt,
      chunk_documents, create_vector_store, intercalateCL]

/-- C7: opening the vector index without a prior build fails with the
spec's `IndexNotFound` (`SystemExit` in `chat.py`, `RuntimeError` in
`web.py`), and the chat session then serves no question at all. -/
theorem load_vector_store_absent_index_not_found
    (llm : List Turn → Except GenError Str) (embedq : Str → List Int)
    (questions : List Str) :
    load_vector_store none = Except.error SessionError.indexNotFound ∧
    web_load_vector_store none = Except.error SessionError.indexNotFound ∧
    runChat llm embedq none questions = Except.error SessionError.indexNotFound :=
  ⟨rfl, rfl, rfl⟩

/-- C8 (counterexample): decoding `b"a\x80b"` with `errors="ignore"`
yields `"ab"` — the invalid byte `0x80` is deleted, not substituted: the
output has length 2 and contains no U+FFFD replacement character (a
substituting decoder would produce the 3-character `"a�b"`). -/
theorem decode_ignore_drops_not_substitutes_cex :
    decodeUtf8Ignore [0x61, 0x80, 0x62] = str "ab" ∧
    (decodeUtf8Ignore [0x61, 0x80, 0x62]).length = 2 ∧
    ¬ Char.ofNat 0xFFFD ∈ decodeUtf8Ignore [0x61, 0x80, 0x62] := by
  refine ⟨rfl, rfl, ?_⟩
  decide

/-- C8 (amended): loading never halts on a bad file: decoding is total
(invalid bytes are silently deleted by `errors="ignore"`), so every
`.txt` file of the directory yields exactly one document, whatever its
bytes. -/
theorem load_documents_never_halts_on_bad_file
    (files : List PFile) (f : PFile) (hf : f ∈ globTxt files) :
    (load_documents (some files)).length = (globTxt files).length ∧
    RDoc.mk (decodeUtf8Ignore f.bytes)
        [(str "source", f.name), (str "file_path", f.path)]
      ∈ load_documents (some files) := by
  constructor
  · simp [load_documents]
  · simp only [load_documents]
    exact List.mem_map.mpr ⟨f, hf, rfl⟩

/-- C8 (witness): the amended statement at a one-file directory whose file
holds an invalid byte. -/
theorem load_documents_never_halts_on_bad_file_witness :
    PFile.mk (str "bad.txt") (str "p/bad.txt") [0x61, 0x80, 0x62]
        ∈ globTxt [PFile.mk (str "bad.txt") (str "p/bad.txt") [0x61, 0x80, 0x62]] ∧
    ((load_documents (some [PFile.mk (str "bad.txt") (str "p/bad.txt") [0x61, 0x80, 0x62]])).length
        = (globTxt [PFile.mk (str "bad.txt") (str "p/bad.txt") [0x61, 0x80, 0x62]]).length ∧
      RDoc.mk (decodeUtf8Ignore [0x61, 0x80, 0x62])
          [(str "source", str "bad.txt"), (str "file_path", str "p/bad.txt")]
        ∈ load_documents (some [PFile.mk (str "bad.txt") (str "p/bad.txt") [0x61, 0x80, 0x62]])) :=
  ⟨by decide,
    load_documents_never_halts_on_bad_file
      [PFile.mk (str "bad.txt") (str "p/bad.txt") [0x61, 0x80, 0x62]]
      (PFile.mk (str "bad.txt") (str "p/bad.txt") [0x61, 0x80, 0x62]) (by decide)⟩

/-- C9: the query-time embedder configuration (model name, device
selection rule, normalisation flag) in `chat.py` and `web.py` equals the
ingestion-time configuration of `ingest.py` on every platform, so any
embedding function applied to them produces the same vector for every
text. -/
theorem embedder_config_pinned_query_eq_ingest (system processor : Str) :
    chat_embedder_config system processor = ingest_embedder_config system processor ∧
    web_embedder_config system processor = ingest_embedder_config system processor ∧
    chat_get_device system processor = ingest_get_device system processor ∧
    web_get_device system processor = ingest_get_device system processor ∧
    ∀ (embed : EmbedderConfig → Str → List Int) (t : Str),
      embed (chat_embedder_config system processor) t
          = embed (ingest_embedder_config system processor) t ∧
      embed (web_embedder_config system processor) t
          = embed (ingest_embedder_config system processor) t :=
  ⟨rfl, rfl, rfl, rfl, fun _ _ => ⟨rfl, rfl⟩⟩

/-- C10: a search result whose metadata has no `"source"` entry is
labelled with the literal source `"unknown"`, and its labelled part still
appears in the (always defined) context string — retrieval never fails on
missing source metadata. -/
theorem retrieve_context_missing_source_unknown
    (store : List (RDoc × List Int)) (qvec : List Int) (k : Nat) (d : RDoc)
    (hd : d ∈ similaritySearch store qvec k)
    (hsrc : d.metadata.find? (fun kv => kv.1 == str "source") = none) :
    formatPart d = str "[Source: unknown]\n" ++ d.page_content ∧
    ∃ pre post, retrieve_context store qvec k = pre ++ formatPart d ++ post := by
  constructor
  · unfold formatPart metaGet
    rw [hsrc]
    have h : (str "[Source: " ++ str "unknown") ++ str "]\n" = str "[Source: unknown]\n" := by
      decide
    rw [← h]
  · have hfold : retrieve_context store qvec k
        = intercalateCL (str "\n\n---\n\n") ((similaritySearch store qvec k).map formatPart) := by
      simp only [retrieve_context]
      rw [foldl_append_singleton formatPart (similaritySearch store qvec k) [],
        List.nil_append]
    rw [hfold]
    exact mem_intercalateCL_decomp (str "\n\n---\n\n") formatPart _ d hd

/-- C10 (witness): the statement at a concrete store holding one document
without a `"source"` metadata entry. -/
theorem retrieve_context_missing_source_unknown_witness :
    RDoc.mk (str "t") [] ∈ similaritySearch [(RDoc.mk (str "t") [], [1])] [1] 5 ∧
    (RDoc.mk (str "t") []).metadata.find? (fun kv => kv.1 == str "source") = none ∧
    (formatPart (RDoc.mk (str "t") [])
        = str "[Source: unknown]\n" ++ (RDoc.mk (str "t") []).page_content ∧
      ∃ pre post, retrieve_context [(RDoc.mk (str "t") [], [1])] [1] 5
        = pre ++ formatPart (RDoc.mk (str "t") []) ++ post) :=
  ⟨by decide, rfl,
    retrieve_context_missing_source_unknown [(RDoc.mk (str "t") [], [1])] [1] 5
      (RDoc.mk (str "t") []) (by decide) rfl⟩

/-!
## Chunker lemmas: a split's pieces reassemble to the text
-/

theorem splitGo_ne_nil (sep : Str) :
    ∀ (t : List Char) (skip : Nat), splitGo sep t skip ≠ [] := by
  intro t
  induction t with
  | nil => intro skip; simp [splitGo]
  | cons c rest ih =>
    intro skip
    cases skip with
    | succ k => simpa [splitGo] using ih k
    | zero =>
      by_cases h : sep.isPrefixOf (c :: rest)
      · simp [splitGo, h]
      · simp only [splitGo, if_neg h]
        cases hg : splitGo sep rest 0 with
        | nil => simp
        | cons p ps => simp

theorem splitGo_skip (sep : Str) :
    ∀ (u v : List Char), splitGo sep (u ++ v) u.length = splitGo sep v 0 := by
  intro u
  induction u with
  | nil => intro v; rfl
  | cons c u' ih => intro v; simpa [splitGo] using ih v

theorem splitGo_reconstruct (sep : Str) (hsep : sep ≠ []) :
    ∀ (n : Nat) (text : List Char), text.length ≤ n →
      intercalateCL sep (splitGo sep text 0) = text := by
  intro n
  induction n with
  | zero =>
    intro text hlen
    have ht : text = [] := List.eq_nil_of_length_eq_zero (Nat.le_zero.mp hlen)
    subst ht
    simp [splitGo, intercalateCL]
  | succ n ih =>
    intro text hlen
    cases text with
    | nil => simp [splitGo, intercalateCL]
    | cons c rest =>
      by_cases hpre : sep.isPrefixOf (c :: rest)
      · obtain ⟨v, hv⟩ := List.isPrefixOf_iff_prefix.mp hpre
        cases hs : sep with
        | nil => exact absurd hs hsep
        | cons s0 stail =>
          subst hs
          have hcc : s0 = c ∧ stail ++ v = rest := by
            have h := hv
            rw [List.cons_append] at h
            exact ⟨List.head_eq_of_cons_eq h, List.tail_eq_of_cons_eq h⟩
          have e1 : splitGo (s0 :: stail) (c :: rest) 0
              = [] :: splitGo (s0 :: stail) rest ((s0 :: stail).length - 1) := by
            simp [splitGo, hpre]
          have e2 : splitGo (s0 :: stail) rest ((s0 :: stail).length - 1)
              = splitGo (s0 :: stail) v 0 := by
            rw [← hcc.2]
            have hl : (s0 :: stail).length - 1 = stail.length := by simp
            rw [hl]
            exact splitGo_skip _ stail v
          rw [e1, e2]
          cases hg : splitGo (s0 :: stail) v 0 with
          | nil => exact absurd hg (splitGo_ne_nil (s0 :: stail) v 0)
          | cons p ps =>
            have hvn : v.length ≤ n := by
              have h1 : (c :: rest).length ≤ n + 1 := hlen
              have h2 : ((s0 :: stail) ++ v).length = (c :: rest).length := by rw [hv]
              rw [List.length_append] at h2
              simp only [List.length_cons] at h1 h2
              omega
            have hrec := ih v hvn
            rw [hg] at hrec
            show [] ++ (s0 :: stail) ++ intercalateCL (s0 :: stail) (p :: ps) = c :: rest
            rw [List.nil_append, hrec, hv]
      · have hrlen : rest.length ≤ n := by
          simp only [List.length_cons] at hlen
          omega
        have hrec := ih rest hrlen
        cases hg : splitGo sep rest 0 with
        | nil => exact absurd hg (splitGo_ne_nil sep rest 0)
        | cons p ps =>
          have e1 : splitGo sep (c :: rest) 0 = (c :: p) :: ps := by
            simp [splitGo, hpre, hg]
          rw [e1]
          rw [hg] at hrec
          cases ps with
          | nil =>
            simp only [intercalateCL] at hrec ⊢
            rw [hrec]
          | cons q qs =>
            simp only [intercalateCL] at hrec ⊢
            rw [← hrec]
            simp [List.cons_append, List.append_assoc]

theorem joinCL_filter_ne_nil :
    ∀ (l : List Str), joinCL (l.filter (· ≠ [])) = joinCL l := by
  intro l
  induction l with
  | nil => rfl
  | cons x xs ih =>
    by_cases hx : x = []
    · subst hx
      have hdrop : (([] : Str) :: xs).filter (· ≠ []) = xs.filter (· ≠ []) := by
        simp [List.filter_cons]
      rw [hdrop, ih]
      simp [joinCL]
    · have hkeep : (x :: xs).filter (· ≠ []) = x :: xs.filter (· ≠ []) := by
        simp [List.filter_cons, hx]
      rw [hkeep]
      simp only [joinCL]
      rw [ih]

theorem intercalateCL_sep_head (sep q : Str) (qs : List Str) :
    intercalateCL sep ((sep ++ q) :: qs) = sep ++ intercalateCL sep (q :: qs) := by
  cases qs with
  | nil => simp [intercalateCL]
  | cons r rs => simp [intercalateCL, List.append_assoc]

theorem joinCL_cons_map (sep : Str) :
    ∀ (ps : List Str) (p : Str),
      joinCL (p :: ps.map (fun q => sep ++ q)) = intercalateCL sep (p :: ps) := by
  intro ps
  induction ps with
  | nil => intro p; simp [joinCL, intercalateCL]
  | cons q qs ih =>
    intro p
    have h1 : joinCL (p :: (q :: qs).map (fun r => sep ++ r))
        = p ++ joinCL ((sep ++ q) :: qs.map (fun r => sep ++ r)) := by
      simp [joinCL]
    rw [h1, ih (sep ++ q), intercalateCL_sep_head]
    simp [intercalateCL, List.append_assoc]

theorem joinCL_map_singleton : ∀ (t : Str), joinCL (t.map fun c => [c]) = t := by
  intro t
  induction t with
  | nil => rfl
  | cons c rest ih => simpa [joinCL] using ih

theorem joinCL_splitKeepSep (sep text : Str) :
    joinCL (splitKeepSep sep text) = text := by
  by_cases hsep : sep = []
  · subst hsep
    have hdef : splitKeepSep [] text = (text.map fun c => [c]).filter (· ≠ []) := rfl
    rw [hdef, joinCL_filter_ne_nil, joinCL_map_singleton]
  · simp only [splitKeepSep, if_neg hsep]
    cases hg : splitGo sep text 0 with
    | nil => exact absurd hg (splitGo_ne_nil sep text 0)
    | cons p ps =>
      rw [joinCL_filter_ne_nil, joinCL_cons_map]
      have hr := splitGo_reconstruct sep hsep text.length text (Nat.le_refl _)
      rw [hg] at hr
      exact hr

theorem mem_le_joinCL :
    ∀ (l : List Str) (x : Str), x ∈ l → x.length ≤ (joinCL l).length := by
  intro l
  induction l with
  | nil => intro x hx; cases hx
  | cons y ys ih =>
    intro x hx
    rcases List.mem_cons.mp hx with h | h
    · subst h
      simp [joinCL, List.length_append]
    · have := ih x h
      simp only [joinCL, List.length_append]
      omega

theorem splitKeepSep_piece_le (sep text : Str) (x : Str)
    (hx : x ∈ splitKeepSep sep text) : x.length ≤ text.length := by
  have h := mem_le_joinCL (splitKeepSep sep text) x hx
  rwa [joinCL_splitKeepSep] at h

/-!
## Chunker lemmas: the merge loop keeps chunks within the size bound
-/

theorem sumLen_append_singleton (l : List Str) (d : Str) :
    sumLen (l ++ [d]) = sumLen l + d.length := by
  induction l with
  | nil => simp [sumLen]
  | cons x xs ih => simp [sumLen, ih]; omega

theorem joinCL_length (l : List Str) : (joinCL l).length = sumLen l := by
  induction l with
  | nil => rfl
  | cons x xs ih => simp [joinCL, sumLen, List.length_append, ih]

theorem pyStrip_length_le (s : Str) : (pyStrip s).length ≤ s.length := by
  unfold pyStrip
  calc ((s.dropWhile isPySpace).reverse.dropWhile isPySpace).reverse.length
      = ((s.dropWhile isPySpace).reverse.dropWhile isPySpace).length := by
        rw [List.length_reverse]
    _ ≤ (s.dropWhile isPySpace).reverse.length :=
        (List.dropWhile_sublist _).length_le
    _ = (s.dropWhile isPySpace).length := by rw [List.length_reverse]
    _ ≤ s.length := (List.dropWhile_sublist _).length_le

theorem joinDocs_length_le (l : List Str) (d : Str) (h : joinDocs l = some d) :
    d.length ≤ sumLen l := by
  simp only [joinDocs] at h
  by_cases hnil : pyStrip (joinCL l) = []
  · rw [if_pos hnil] at h
    cases h
  · rw [if_neg hnil] at h
    cases h
    calc (pyStrip (joinCL l)).length ≤ (joinCL l).length := pyStrip_length_le _
      _ = sumLen l := joinCL_length l

theorem popWhile_spec (ov cs lenD : Nat) :
    ∀ (cur : List Str) (tot : Nat), tot = sumLen cur →
      (popWhile ov cs lenD cur tot).2 = sumLen (popWhile ov cs lenD cur tot).1 ∧
      ((popWhile ov cs lenD cur tot).2 + lenD ≤ cs ∨ (popWhile ov cs lenD cur tot).2 = 0) := by
  intro cur
  induction cur with
  | nil =>
    intro tot htot
    simp [sumLen] at htot
    simp [popWhile, htot, sumLen]
  | cons c rest ih =>
    intro tot htot
    by_cases hcond : tot > ov ∨ (tot + lenD > cs ∧ tot > 0)
    · have hstep : popWhile ov cs lenD (c :: rest) tot
          = popWhile ov cs lenD rest (tot - c.length) := by
        simp only [popWhile, if_pos hcond]
      rw [hstep]
      apply ih
      simp [sumLen] at htot
      omega
    · have hstep : popWhile ov cs lenD (c :: rest) tot = (c :: rest, tot) := by
        simp only [popWhile, if_neg hcond]
      rw [hstep]
      refine ⟨htot, ?_⟩
      push_neg at hcond
      rcases Nat.eq_zero_or_pos tot with h0 | hpos
      · right; exact h0
      · left
        have := hcond.2 -- tot + lenD > cs → ¬ tot > 0
        omega

theorem mergeLoop_bound (cs ov : Nat) :
    ∀ (pending docs current : List Str) (total : Nat),
      (∀ x ∈ pending, x.length < cs) →
      total = sumLen current →
      total ≤ cs →
      (∀ d ∈ docs, d.length ≤ cs) →
      ∀ d ∈ mergeLoop cs ov docs current total pending, d.length ≤ cs := by
  intro pending
  induction pending with
  | nil =>
    intro docs current total _ htot hle hdocs d hd
    simp only [mergeLoop] at hd
    cases hj : joinDocs current with
    | none => rw [hj] at hd; exact hdocs d hd
    | some dd =>
      rw [hj] at hd
      rcases List.mem_append.mp hd with h | h
      · exact hdocs d h
      · have hdd : d = dd := by simpa using h
        subst hdd
        have := joinDocs_length_le current d hj
        omega
  | cons p ps ih =>
    intro docs current total hpend htot hle hdocs d hd
    have hplen : p.length < cs := hpend p (List.mem_cons_self p ps)
    have hpend' : ∀ x ∈ ps, x.length < cs := fun x hx => hpend x (List.mem_cons_of_mem p hx)
    by_cases hover : total + p.length > cs
    · by_cases hemp : current.isEmpty
      · have hcur : current = [] := List.isEmpty_iff.mp hemp
        subst hcur
        simp [sumLen] at htot
        -- total = 0 yet total + p.length > cs with p.length < cs: impossible
        omega
      · have hstep : mergeLoop cs ov docs current total (p :: ps)
            = mergeLoop cs ov
                (match joinDocs current with
                 | some dd => docs ++ [dd]
                 | none => docs)
                ((popWhile ov cs p.length current total).1 ++ [p])
                ((popWhile ov cs p.length current total).2 + p.length) ps := by
          simp only [mergeLoop, if_pos hover, hemp]
          rfl
        rw [hstep] at hd
        have hpop := popWhile_spec ov cs p.length current total htot
        have htot2 : (popWhile ov cs p.length current total).2 + p.length
            = sumLen ((popWhile ov cs p.length current total).1 ++ [p]) := by
          rw [sumLen_append_singleton, hpop.1]
        have hle2 : (popWhile ov cs p.length current total).2 + p.length ≤ cs := by
          rcases hpop.2 with h | h
          · exact h
          · omega
        have hdocs2 : ∀ dd ∈ (match joinDocs current with
            | some dd => docs ++ [dd]
            | none => docs), dd.length ≤ cs := by
          cases hj : joinDocs current with
          | none => exact hdocs
          | some de =>
            intro dd hdd
            rcases List.mem_append.mp hdd with h | h
            · exact hdocs dd h
            · have : dd = de := by simpa using h
              subst this
              have := joinDocs_length_le current dd hj
              omega
        exact ih _ _ _ hpend' htot2 hle2 hdocs2 d hd
    · have hstep : mergeLoop cs ov docs current total (p :: ps)
          = mergeLoop cs ov docs (current ++ [p]) (total + p.length) ps := by
        simp only [mergeLoop, if_neg hover]
      rw [hstep] at hd
      have htot2 : total + p.length = sumLen (current ++ [p]) := by
        rw [sumLen_append_singleton, htot]
      exact ih _ _ _ hpend' htot2 (by omega) hdocs d hd

theorem mergeSplits_bound (cs ov : Nat) (splits : List Str)
    (h : ∀ x ∈ splits, x.length < cs) :
    ∀ d ∈ mergeSplits cs ov splits, d.length ≤ cs := by
  intro d hd
  exact mergeLoop_bound cs ov splits [] [] 0 h rfl (Nat.zero_le cs)
    (by intro x hx; cases hx) d hd

theorem mergeLoop_small (cs ov : Nat) :
    ∀ (pending docs current : List Str) (total : Nat),
      total = sumLen current →
      total + sumLen pending ≤ cs →
      mergeLoop cs ov docs current total pending
        = docs ++ (match joinDocs (current ++ pending) with
                   | some d => [d]
                   | none => []) := by
  intro pending
  induction pending with
  | nil =>
    intro docs current total _ _
    simp only [mergeLoop, List.append_nil]
    cases joinDocs current <;> simp
  | cons p ps ih =>
    intro docs current total htot hsum
    have hnover : ¬ total + p.length > cs := by
      simp only [sumLen] at hsum
      omega
    have hstep : mergeLoop cs ov docs current total (p :: ps)
        = mergeLoop cs ov docs (current ++ [p]) (total + p.length) ps := by
      simp only [mergeLoop, if_neg hnover]
    rw [hstep, ih docs (current ++ [p]) (total + p.length)
      (by rw [sumLen_append_singleton, htot])
      (by simp only [sumLen] at hsum ⊢; omega)]
    rw [List.append_assoc]
    rfl

theorem mergeSplits_small (cs ov : Nat) (splits : List Str)
    (h : sumLen splits ≤ cs) :
    mergeSplits cs ov splits
      = match joinDocs splits with
        | some d => [d]
        | none => [] := by
  unfold mergeSplits
  rw [mergeLoop_small cs ov splits [] [] 0 rfl (by simpa using h)]
  simp

/-!
## Chunker lemmas: separator selection and the recursive split
-/

theorem pickSep_snd_shorter (text : Str) :
    ∀ (seps : List Str),
      (pickSep text seps).2 = [] ∨ (pickSep text seps).2.length < seps.length := by
  intro seps
  induction seps with
  | nil => left; rfl
  | cons s rest ih =>
    simp only [pickSep]
    by_cases hs : s = []
    · rw [if_pos hs]; left; rfl
    · rw [if_neg hs]
      by_cases ho : occursIn s text = true
      · rw [if_pos ho]; right; simp
      · rw [if_neg ho]
        cases rest with
        | nil => left; rfl
        | cons r rs =>
          rcases ih with h | h
          · left; exact h
          · right
            calc (pickSep text (r :: rs)).2.length < (r :: rs).length := h
              _ < (s :: r :: rs).length := by simp

theorem pickSep_fst_nil (text : Str) :
    ∀ (seps : List Str), (pickSep text seps).1 = [] → (pickSep text seps).2 = [] := by
  intro seps
  induction seps with
  | nil => intro _; rfl
  | cons s rest ih =>
    intro h
    simp only [pickSep] at h ⊢
    by_cases hs : s = []
    · rw [if_pos hs]
    · rw [if_neg hs] at h ⊢
      by_cases ho : occursIn s text = true
      · rw [if_pos ho] at h
        exact absurd h hs
      · rw [if_neg ho] at h ⊢
        cases rest with
        | nil => exact absurd h hs
        | cons r rs => exact ih h

theorem pickSep_mem_empty (text : Str) :
    ∀ (seps : List Str), [] ∈ seps →
      (pickSep text seps).1 = [] ∨ [] ∈ (pickSep text seps).2 := by
  intro seps
  induction seps with
  | nil => intro h; cases h
  | cons s rest ih =>
    intro hmem
    simp only [pickSep]
    by_cases hs : s = []
    · rw [if_pos hs]; left; rfl
    · have hrest : ([] : Str) ∈ rest := by
        rcases List.mem_cons.mp hmem with h | h
        · exact absurd h.symm hs
        · exact h
      rw [if_neg hs]
      by_cases ho : occursIn s text = true
      · rw [if_pos ho]; right; exact hrest
      · rw [if_neg ho]
        cases rest with
        | nil => cases hrest
        | cons r rs => exact ih hrest

theorem splitKeepSep_nil_len (text : Str) (x : Str)
    (hx : x ∈ splitKeepSep [] text) : x.length = 1 := by
  have hdef : splitKeepSep [] text = (text.map fun c => [c]).filter (· ≠ []) := rfl
  rw [hdef] at hx
  have hmap := List.mem_of_mem_filter hx
  obtain ⟨c, _, rfl⟩ := List.mem_map.mp hmap
  rfl

theorem processSplits_bound (cs ov : Nat) (hasNew : Bool) (recur : Str → List Str)
    (hrec : hasNew = true → ∀ s c, c ∈ recur s → c.length ≤ cs) :
    ∀ (pending goods : List Str),
      (∀ x ∈ goods, x.length < cs) →
      (hasNew = false → ∀ s ∈ pending, s.length < cs) →
      ∀ c ∈ processSplits cs ov hasNew recur goods pending, c.length ≤ cs := by
  intro pending
  induction pending with
  | nil =>
    intro goods hg _ c hc
    simp only [processSplits] at hc
    by_cases he : goods.isEmpty
    · rw [if_pos he] at hc; cases hc
    · rw [if_neg he] at hc
      exact mergeSplits_bound cs ov goods hg c hc
  | cons s rest ih =>
    intro goods hg hno c hc
    by_cases hlt : s.length < cs
    · have hstep : processSplits cs ov hasNew recur goods (s :: rest)
          = processSplits cs ov hasNew recur (goods ++ [s]) rest := by
        simp only [processSplits, if_pos hlt]
      rw [hstep] at hc
      refine ih (goods ++ [s]) ?_ ?_ c hc
      · intro x hx
        rcases List.mem_append.mp hx with h | h
        · exact hg x h
        · have hxs : x = s := by simpa using h
          subst hxs; exact hlt
      · intro hfalse s' hs'
        exact hno hfalse s' (List.mem_cons_of_mem s hs')
    · have hstep : processSplits cs ov hasNew recur goods (s :: rest)
          = (if goods.isEmpty then [] else mergeSplits cs ov goods)
            ++ (if hasNew then recur s else [s])
            ++ processSplits cs ov hasNew recur [] rest := by
        simp only [processSplits, if_neg hlt]
      rw [hstep] at hc
      rcases List.mem_append.mp hc with h1 | h2
      · rcases List.mem_append.mp h1 with ha | hb
        · by_cases he : goods.isEmpty
          · rw [if_pos he] at ha; cases ha
          · rw [if_neg he] at ha
            exact mergeSplits_bound cs ov goods hg c ha
        · cases hasNew with
          | true =>
            simp only [if_true] at hb
            exact hrec rfl s c hb
          | false =>
            exact absurd (hno rfl s (List.mem_cons_self s rest)) hlt
      · exact ih [] (by intro x hx; cases hx)
          (fun hfalse s' hs' => hno hfalse s' (List.mem_cons_of_mem s hs')) c h2

theorem splitTextFuel_bound (cs ov : Nat) (hcs : 2 ≤ cs) :
    ∀ (fuel : Nat) (seps : List Str) (text : Str),
      [] ∈ seps → seps.length ≤ fuel →
      ∀ c ∈ splitTextFuel cs ov fuel seps text, c.length ≤ cs := by
  intro fuel
  induction fuel with
  | zero =>
    intro seps text hmem hlen
    have hnil : seps = [] := List.eq_nil_of_length_eq_zero (Nat.le_zero.mp hlen)
    subst hnil
    cases hmem
  | succ fuel ih =>
    intro seps text hmem hlen c hc
    simp only [splitTextFuel] at hc
    by_cases hp : (pickSep text seps).1 = []
    · have hq : (pickSep text seps).2 = [] := pickSep_fst_nil text seps hp
      rw [hp, hq] at hc
      refine processSplits_bound cs ov _ _ ?_ _ [] (by intro x hx; cases hx) ?_ c hc
      · intro habs
        simp at habs
      · intro _ s hs
        have h1 := splitKeepSep_nil_len text s hs
        omega
    · rcases pickSep_mem_empty text seps hmem with h | h
      · exact absurd h hp
      · have hqne : (pickSep text seps).2 ≠ [] := by
          intro hnil
          rw [hnil] at h
          cases h
        have hqlen : (pickSep text seps).2.length ≤ fuel := by
          rcases pickSep_snd_shorter text seps with h0 | h0
          · exact absurd h0 hqne
          · omega
        refine processSplits_bound cs ov _ _ ?_ _ [] (by intro x hx; cases hx) ?_ c hc
        · intro _ s cc hcc
          exact ih (pickSep text seps).2 s h hqlen cc hcc
        · intro habs
          have hempt : (pickSep text seps).2.isEmpty = true := by
            cases hbool : (pickSep text seps).2.isEmpty
            · rw [hbool] at habs; cases habs
            · rfl
          exact absurd (List.isEmpty_iff.mp hempt) hqne

theorem splitText_chunk_le (text : Str) : ∀ c ∈ splitText text, c.length ≤ 1000 := by
  intro c hc
  have hmem : ([] : Str) ∈ SEPARATORS := by simp [SEPARATORS]
  exact splitTextFuel_bound 1000 200 (by norm_num) SEPARATORS.length SEPARATORS text
    hmem (Nat.le_refl _) c hc

theorem processSplits_allgood (cs ov : Nat) (hasNew : Bool) (recur : Str → List Str) :
    ∀ (pending goods : List Str), (∀ s ∈ pending, s.length < cs) →
      processSplits cs ov hasNew recur goods pending
        = if goods ++ pending = [] then [] else mergeSplits cs ov (goods ++ pending) := by
  intro pending
  induction pending with
  | nil =>
    intro goods _
    simp only [processSplits, List.append_nil]
    by_cases he : goods.isEmpty
    · have hnil : goods = [] := List.isEmpty_iff.mp he
      subst hnil
      simp
    · have hne : goods ≠ [] := by
        intro hnil; subst hnil; simp at he
      rw [if_neg he, if_neg hne]
  | cons s rest ih =>
    intro goods hall
    have hlt : s.length < cs := hall s (List.mem_cons_self s rest)
    have hstep : processSplits cs ov hasNew recur goods (s :: rest)
        = processSplits cs ov hasNew recur (goods ++ [s]) rest := by
      simp only [processSplits, if_pos hlt]
    rw [hstep, ih (goods ++ [s]) (fun x hx => hall x (List.mem_cons_of_mem s hx)),
      List.append_assoc]
    rfl

theorem splitText_single (text : Str) (hlen : text.length < 1000)
    (hstrip : pyStrip text = text) (hne : text ≠ []) : splitText text = [text] := by
  have hdef : splitText text
      = processSplits 1000 200 (!(pickSep text SEPARATORS).2.isEmpty)
          (splitTextFuel 1000 200 4 (pickSep text SEPARATORS).2) []
          (splitKeepSep (pickSep text SEPARATORS).1 text) := rfl
  rw [hdef]
  have hall : ∀ s ∈ splitKeepSep (pickSep text SEPARATORS).1 text, s.length < 1000 :=
    fun s hs => lt_of_le_of_lt (splitKeepSep_piece_le _ text s hs) hlen
  rw [processSplits_allgood 1000 200 _ _ _ [] hall, List.nil_append]
  have hsne : splitKeepSep (pickSep text SEPARATORS).1 text ≠ [] := by
    intro h
    have hj := joinCL_splitKeepSep (pickSep text SEPARATORS).1 text
    rw [h] at hj
    exact hne hj.symm
  rw [if_neg hsne]
  have hsum : sumLen (splitKeepSep (pickSep text SEPARATORS).1 text) ≤ 1000 := by
    rw [← joinCL_length, joinCL_splitKeepSep]
    omega
  rw [mergeSplits_small 1000 200 _ hsum]
  simp only [joinDocs, joinCL_splitKeepSep, hstrip]
  rw [if_neg hne]

/-- C3 (counterexample): the one-chunk document `" a"` is returned as the
stripped chunk `"a"`.  A single chunk has no overlap at all, so the
concatenation of the chunks' non-overlapping regions is `"a"`, which does
not reconstruct the original document `" a"` — the leading space is lost
to `strip_whitespace`. -/
theorem chunk_strip_reconstruction_cex :
    chunk_documents [RDoc.mk (str " a") []] = [RDoc.mk (str "a") []] ∧
    joinCL ((chunk_documents [RDoc.mk (str " a") []]).map RDoc.page_content) = str "a" ∧
    str "a" ≠ str " a" := by
  refine ⟨by decide, by decide, by decide⟩

/-- C3 (amended): every chunk is whitespace-stripped, so exact
reconstruction fails in general; when no stripping occurs the invariant
does hold — in particular every non-empty document shorter than
`chunk_size` that equals its own strip is returned as the single chunk
equal to the document, which reconstructs it exactly. -/
theorem chunk_documents_single_fits_reconstructs
    (text : Str) (m : List (Str × Str)) (hlen : text.length < 1000)
    (hstrip : pyStrip text = text) (hne : text ≠ []) :
    chunk_documents [RDoc.mk text m] = [RDoc.mk text m] ∧
    joinCL ((chunk_documents [RDoc.mk text m]).map RDoc.page_content) = text := by
  have hs := splitText_single text hlen hstrip hne
  constructor
  · simp [chunk_documents, hs]
  · simp [chunk_documents, hs, joinCL]

/-- C3 (witness): the amended statement at the concrete document `"abc"`. -/
theorem chunk_documents_single_fits_reconstructs_witness :
    (str "abc").length < 1000 ∧ pyStrip (str "abc") = str "abc" ∧ str "abc" ≠ [] ∧
    (chunk_documents [RDoc.mk (str "abc") []] = [RDoc.mk (str "abc") []] ∧
      joinCL ((chunk_documents [RDoc.mk (str "abc") []]).map RDoc.page_content) = str "abc") :=
  ⟨by decide, by decide, by decide,
    chunk_documents_single_fits_reconstructs (str "abc") [] (by decide) (by decide) (by decide)⟩

/-!
## Chunker lemmas: splitting one long unsplittable word
-/

theorem occursIn_replicate_false (s0 : Char) (stail : Str) (c : Char) (hne : s0 ≠ c) :
    ∀ n, occursIn (s0 :: stail) (List.replicate n c) = false := by
  intro n
  induction n with
  | zero => simp [occursIn, List.isPrefixOf]
  | succ n ih =>
    rw [List.replicate_succ]
    simp only [occursIn]
    rw [ih]
    simp [List.isPrefixOf, hne]

theorem pickSep_replicate (n : Nat) :
    pickSep (List.replicate n 'a') SEPARATORS = ([], []) := by
  have h1 := occursIn_replicate_false '\n' ['\n'] 'a' (by decide) n
  have h2 := occursIn_replicate_false '\n' [] 'a' (by decide) n
  have h3 := occursIn_replicate_false '.' [' '] 'a' (by decide) n
  have h4 := occursIn_replicate_false ' ' [] 'a' (by decide) n
  simp [SEPARATORS, pickSep, h1, h2, h3, h4]

theorem splitKeepSep_nil_replicate (n : Nat) :
    splitKeepSep [] (List.replicate n 'a') = List.replicate n (['a'] : Str) := by
  have hdef : splitKeepSep [] (List.replicate n 'a')
      = ((List.replicate n 'a').map fun c => [c]).filter (· ≠ []) := rfl
  rw [hdef, List.map_replicate, List.filter_eq_self.mpr]
  intro a ha
  have hax : a = ['a'] := List.eq_of_mem_replicate ha
  subst hax
  decide

theorem dropWhile_isPySpace_replicate_a (m : Nat) :
    (List.replicate m 'a').dropWhile isPySpace = List.replicate m 'a' := by
  cases m with
  | zero => rfl
  | succ k =>
    rw [List.replicate_succ, List.dropWhile_cons]
    simp [show isPySpace 'a' = false from by decide]

theorem pyStrip_replicate_a (m : Nat) :
    pyStrip (List.replicate m 'a') = List.replicate m 'a' := by
  unfold pyStrip
  rw [dropWhile_isPySpace_replicate_a, List.reverse_replicate,
    dropWhile_isPySpace_replicate_a, List.reverse_replicate]

theorem joinCL_replicate_singleton (m : Nat) :
    joinCL (List.replicate m (['a'] : Str)) = List.replicate m 'a' := by
  induction m with
  | zero => rfl
  | succ k ih =>
    rw [List.replicate_succ, List.replicate_succ]
    simp [joinCL, ih]

theorem joinDocs_replicate_a (m : Nat) (hm : 1 ≤ m) :
    joinDocs (List.replicate m (['a'] : Str)) = some (List.replicate m 'a') := by
  simp only [joinDocs, joinCL_replicate_singleton, pyStrip_replicate_a]
  rw [if_neg]
  intro h
  have hlen := congrArg List.length h
  simp at hlen
  omega

theorem mergeLoop_consume (m : Nat) (docs : List Str) (ds : List Str) (hm : m + 1 ≤ 1000) :
    mergeLoop 1000 200 docs (List.replicate m (['a'] : Str)) m ((['a'] : Str) :: ds)
      = mergeLoop 1000 200 docs (List.replicate (m + 1) (['a'] : Str)) (m + 1) ds := by
  have hcond : ¬ m + (['a'] : Str).length > 1000 := by
    simp only [List.length_singleton]
    omega
  simp only [mergeLoop, if_neg hcond]
  rw [← List.replicate_succ']
  rfl

theorem mergeLoop_climb (k : Nat) :
    ∀ (m r : Nat) (docs : List Str), m + k = 1000 →
      mergeLoop 1000 200 docs (List.replicate m (['a'] : Str)) m
          (List.replicate (k + r) (['a'] : Str))
        = mergeLoop 1000 200 docs (List.replicate 1000 (['a'] : Str)) 1000
            (List.replicate r (['a'] : Str)) := by
  induction k with
  | zero =>
    intro m r docs hm
    have hm' : m = 1000 := by omega
    subst hm'
    rw [Nat.zero_add]
  | succ k ih =>
    intro m r docs hm
    have hrep : k + 1 + r = (k + r) + 1 := by omega
    rw [hrep, List.replicate_succ]
    rw [mergeLoop_consume m docs _ (by omega)]
    exact ih (m + 1) r docs (by omega)

theorem popWhile_replicate (j : Nat) :
    popWhile 200 1000 1 (List.replicate (200 + j) (['a'] : Str)) (200 + j)
      = (List.replicate 200 (['a'] : Str), 200) := by
  induction j with
  | zero =>
    simp only [Nat.add_zero]
    have e : List.replicate 200 (['a'] : Str) = ['a'] :: List.replicate 199 (['a'] : Str) :=
      List.replicate_succ (['a'] : Str) 199
    have hcond : ¬ ((200 : Nat) > 200 ∨ ((200 : Nat) + 1 > 1000 ∧ (200 : Nat) > 0)) := by
      omega
    rw [e]
    rw [popWhile, if_neg hcond]
  | succ j ih =>
    have h1 : 200 + (j + 1) = (200 + j) + 1 := by omega
    rw [h1, List.replicate_succ]
    have hcond : (200 + j) + 1 > 200 ∨ ((200 + j) + 1 + 1 > 1000 ∧ (200 + j) + 1 > 0) := by
      left; omega
    simp only [popWhile, if_pos hcond]
    have h2 : (200 + j) + 1 - (['a'] : Str).length = 200 + j := by
      simp only [List.length_singleton]
      omega
    rw [h2]
    exact ih

theorem mergeLoop_emit (docs : List Str) (r : Nat) :
    mergeLoop 1000 200 docs (List.replicate 1000 (['a'] : Str)) 1000
        ((['a'] : Str) :: List.replicate r (['a'] : Str))
      = mergeLoop 1000 200 (docs ++ [List.replicate 1000 'a'])
          (List.replicate 201 (['a'] : Str)) 201 (List.replicate r (['a'] : Str)) := by
  have hcond : 1000 + (['a'] : Str).length > 1000 := by
    simp only [List.length_singleton]
    omega
  have hemp : (List.replicate 1000 (['a'] : Str)).isEmpty = false := by
    rw [List.replicate_succ (['a'] : Str) 999]
    rfl
  have hnemp : ¬ ((List.replicate 1000 (['a'] : Str)).isEmpty = true) := by
    rw [hemp]
    exact Bool.false_ne_true
  rw [mergeLoop, if_pos hcond, if_neg hnemp]
  rw [joinDocs_replicate_a 1000 (by omega)]
  have hpop : popWhile 200 1000 (['a'] : Str).length (List.replicate 1000 (['a'] : Str)) 1000
      = (List.replicate 200 (['a'] : Str), 200) := by
    have h8 := popWhile_replicate 800
    rw [show (200 + 800 : Nat) = 1000 from rfl] at h8
    rw [show (['a'] : Str).length = 1 from rfl]
    exact h8
  rw [hpop]
  simp only []
  rw [← List.replicate_succ']
  rfl

theorem mergeLoop_final (m : Nat) (docs : List Str) (hm : 1 ≤ m) :
    mergeLoop 1000 200 docs (List.replicate m (['a'] : Str)) m []
      = docs ++ [List.replicate m 'a'] := by
  have e : mergeLoop 1000 200 docs (List.replicate m (['a'] : Str)) m []
      = match joinDocs (List.replicate m (['a'] : Str)) with
        | some d => docs ++ [d]
        | none => docs := rfl
  rw [e, joinDocs_replicate_a m hm]

theorem mergeLoop_consume_run (r : Nat) :
    ∀ (m : Nat) (docs : List Str), 1 ≤ m → m + r ≤ 1000 →
      mergeLoop 1000 200 docs (List.replicate m (['a'] : Str)) m
          (List.replicate r (['a'] : Str))
        = docs ++ [List.replicate (m + r) 'a'] := by
  induction r with
  | zero =>
    intro m docs h1 _
    rw [List.replicate_zero, mergeLoop_final m docs h1, Nat.add_zero]
  | succ r ih =>
    intro m docs h1 h2
    rw [List.replicate_succ, mergeLoop_consume m docs _ (by omega),
      ih (m + 1) docs (by omega) (by omega)]
    rw [show m + 1 + r = m + (r + 1) from by omega]

theorem splitText_long_word :
    splitText (List.replicate 2000 'a')
      = [List.replicate 1000 'a', List.replicate 1000 'a', List.replicate 400 'a'] := by
  have hdef : splitText (List.replicate 2000 'a')
      = processSplits 1000 200
          (!(pickSep (List.replicate 2000 'a') SEPARATORS).2.isEmpty)
          (splitTextFuel 1000 200 4 (pickSep (List.replicate 2000 'a') SEPARATORS).2) []
          (splitKeepSep (pickSep (List.replicate 2000 'a') SEPARATORS).1
            (List.replicate 2000 'a')) := rfl
  rw [hdef, pickSep_replicate 2000]
  show processSplits 1000 200 (!(List.isEmpty ([] : List Str)))
      (splitTextFuel 1000 200 4 ([] : List Str)) []
      (splitKeepSep ([] : Str) (List.replicate 2000 'a'))
    = [List.replicate 1000 'a', List.replicate 1000 'a', List.replicate 400 'a']
  rw [splitKeepSep_nil_replicate 2000]
  rw [processSplits_allgood 1000 200 _ _ _ []
    (fun s hs => by rw [List.eq_of_mem_replicate hs]; decide)]
  rw [List.nil_append, if_neg (by
    intro h
    have hlen := congrArg List.length h
    rw [List.length_replicate] at hlen
    exact absurd hlen (by decide))]
  calc mergeSplits 1000 200 (List.replicate 2000 (['a'] : Str))
      = mergeLoop 1000 200 [] (List.replicate 0 (['a'] : Str)) 0
          (List.replicate (1000 + 1000) (['a'] : Str)) := rfl
    _ = mergeLoop 1000 200 [] (List.replicate 1000 (['a'] : Str)) 1000
          (List.replicate 1000 (['a'] : Str)) :=
        mergeLoop_climb 1000 0 1000 [] (by omega)
    _ = mergeLoop 1000 200 [] (List.replicate 1000 (['a'] : Str)) 1000
          ((['a'] : Str) :: List.replicate 999 (['a'] : Str)) := by
        rw [List.replicate_succ (['a'] : Str) 999]
    _ = mergeLoop 1000 200 ([] ++ [List.replicate 1000 'a'])
          (List.replicate 201 (['a'] : Str)) 201 (List.replicate 999 (['a'] : Str)) :=
        mergeLoop_emit [] 999
    _ = mergeLoop 1000 200 [List.replicate 1000 'a'] (List.replicate 201 (['a'] : Str)) 201
          (List.replicate (799 + 200) (['a'] : Str)) := rfl
    _ = mergeLoop 1000 200 [List.replicate 1000 'a'] (List.replicate 1000 (['a'] : Str)) 1000
          (List.replicate 200 (['a'] : Str)) :=
        mergeLoop_climb 799 201 200 [List.replicate 1000 'a'] (by omega)
    _ = mergeLoop 1000 200 [List.replicate 1000 'a'] (List.replicate 1000 (['a'] : Str)) 1000
          ((['a'] : Str) :: List.replicate 199 (['a'] : Str)) := by
        rw [List.replicate_succ (['a'] : Str) 199]
    _ = mergeLoop 1000 200 ([List.replicate 1000 'a'] ++ [List.replicate 1000 'a'])
          (List.replicate 201 (['a'] : Str)) 201 (List.replicate 199 (['a'] : Str)) :=
        mergeLoop_emit [List.replicate 1000 'a'] 199
    _ = ([List.replicate 1000 'a'] ++ [List.replicate 1000 'a'])
          ++ [List.replicate (201 + 199) 'a'] :=
        mergeLoop_consume_run 199 201 _ (by omega) (by omega)
    _ = [List.replicate 1000 'a', List.replicate 1000 'a', List.replicate 400 'a'] := rfl

/-- C4 (counterexample): a document consisting of one 2000-character word
(`"a" * 2000`) with `max_size = 1000` yields three chunks of lengths
1000, 1000, 400 — the word is split at the raw character limit by the
final `""` separator, not kept intact as a single over-size chunk. -/
theorem long_word_split_into_three_chunks_cex :
    (chunk_documents [RDoc.mk (List.replicate 2000 'a') []]).map
        (fun c => c.page_content.length) = [1000, 1000, 400] ∧
    ¬ (chunk_documents [RDoc.mk (List.replicate 2000 'a') []]).length = 1 := by
  have hchunks : chunk_documents [RDoc.mk (List.replicate 2000 'a') []]
      = [RDoc.mk (List.replicate 1000 'a') [], RDoc.mk (List.replicate 1000 'a') [],
          RDoc.mk (List.replicate 400 'a') []] := by
    rw [show chunk_documents [RDoc.mk (List.replicate 2000 'a') []]
        = ((splitText (List.replicate 2000 'a')).map
            (fun c => RDoc.mk c [])) ++ [] from rfl]
    rw [splitText_long_word]
    rfl
  rw [hchunks]
  constructor
  · simp only [List.map_cons, List.map_nil, List.length_replicate]
  · simp only [List.length_cons, List.length_nil]
    omega

/-- C4 (amended): every chunk produced by the chunker has length at most
`max_size = 1000`, with no over-size exception: since the separator list
ends with `""`, an unsplittable over-long token is split at the raw
character limit instead of being emitted intact. -/
theorem chunk_length_le_max_size (documents : List RDoc) (c : RDoc)
    (hc : c ∈ chunk_documents documents) : c.page_content.length ≤ 1000 := by
  simp only [chunk_documents] at hc
  obtain ⟨l, hl, hcl⟩ := List.mem_flatten.mp hc
  obtain ⟨d, _, rfl⟩ := List.mem_map.mp hl
  obtain ⟨t, ht, rfl⟩ := List.mem_map.mp hcl
  exact splitText_chunk_le d.page_content t ht

/-- C4 (witness): the amended bound at a concrete chunk. -/
theorem chunk_length_le_max_size_witness :
    RDoc.mk (str "hi") [] ∈ chunk_documents [RDoc.mk (str "hi") []] ∧
    (RDoc.mk (str "hi") []).page_content.length ≤ 1000 :=
  ⟨by decide,
    chunk_length_le_max_size [RDoc.mk (str "hi") []] (RDoc.mk (str "hi") []) (by decide)⟩
